import Mathlib

/-!
Verification of the folio service-worker cache core (`src/sw.js`).

This file shallowly embeds the request-interception and cache-orchestration
layer of the folio repository: the named cache store, the lifecycle handlers
(install / activate) and the fetch handler with its three caching strategies
and the bounded FIFO eviction for the image cache.

Modelling conventions:
* A network response is a status flag (`ok`) plus an abstract body tag;
  cloning a response is the identity on this model.
* The `CacheStorage` is a creation-ordered list of named generations, each a
  list of (request, response) entries in insertion order; `caches.match`
  searches the generations in creation order and each generation's entries in
  insertion order, keyed on the request URL.
* The asynchronous store writes of the handler are modelled as completing
  before the handler's result is observed (sequential interleaving), which is
  the schedule the specification's sequential claims quantify over.
-/

namespace Folio

/-- JavaScript `String.prototype.includes` on the character lists of the two
strings: `jsIncludes s pat` is true iff `pat` occurs as a contiguous substring
of `s`. -/
def charsPrefixOf : List Char → List Char → Bool
  | [], _ => true
  | _ :: _, [] => false
  | p :: ps, c :: cs => p == c && charsPrefixOf ps cs

def charsInfixOf (pat : List Char) : List Char → Bool
  | [] => charsPrefixOf pat []
  | c :: cs => charsPrefixOf pat (c :: cs) || charsInfixOf pat cs

def jsIncludes (s pat : String) : Bool := charsInfixOf pat.data s.data

/-- JavaScript `String.prototype.startsWith`. -/
def jsStartsWith (s pat : String) : Bool := charsPrefixOf pat.data s.data

/-- A network response: `ok` mirrors `Response.ok` (status in 200–299); `body`
is an abstract tag distinguishing response contents. -/
structure Response where
  ok : Bool
  body : Nat
deriving DecidableEq, Repr

/-- A request identity: method, absolute URL, and the `hostname` and `origin`
components that `new URL(request.url)` exposes. -/
structure Request where
  method : String
  url : String
  hostname : String
  origin : String
deriving DecidableEq, Repr

/-- One cache generation: entries in insertion order. -/
abbrev Entries := List (Request × Response)

/-- The named cache store: generations in creation order. -/
abbrev CacheStore := List (String × Entries)

/-- Constant `CACHE_NAME = 'folio-v1.0'` (src/sw.js line 1). -/
def CACHE_NAME : String := "folio-v1.0"

/-- Constant `PRECACHE_URLS` (src/sw.js lines 2–6). -/
def PRECACHE_URLS : List String :=
  ["/folio/", "/folio/index.html", "/folio/manifest.json"]

/-- Constant `RUNTIME_CACHE_ORIGINS` (src/sw.js lines 8–12). -/
def RUNTIME_CACHE_ORIGINS : List String :=
  ["https://fonts.googleapis.com", "https://fonts.gstatic.com",
   "https://www.gstatic.com/firebasejs"]

/-- Constant `IMAGE_CACHE = 'folio-images-v1'` (src/sw.js line 14). -/
def IMAGE_CACHE : String := "folio-images-v1"

/-- Constant `IMAGE_CACHE_LIMIT = 100` (src/sw.js line 15). -/
def IMAGE_CACHE_LIMIT : Nat := 100

/-- Whether a generation with this name exists in the store. -/
def hasCache (name : String) (s : CacheStore) : Bool :=
  s.any (fun g => g.1 == name)

/-- Operation `caches.open(name)`: creates the generation (at the end, creation order)
if absent. -/
def openCache (name : String) (s : CacheStore) : CacheStore :=
  if hasCache name s then s else s ++ [(name, [])]

/-- Entry lookup inside one generation: first entry whose request URL equals
the given request's URL. -/
def matchEntries (req : Request) (es : Entries) : Option Response :=
  (es.find? (fun e => e.1.url == req.url)).map (·.2)

/-- Operation `caches.match(request)`: search every generation in creation order,
return the first matching snapshot. -/
def cachesMatch (req : Request) : CacheStore → Option Response
  | [] => none
  | g :: rest =>
    match matchEntries req g.2 with
    | some r => some r
    | none => cachesMatch req rest

/-- Operation `cache.put(request, response)` on one generation's entry list: any entry
for the same URL is removed and the new entry appended. -/
def putEntries (req : Request) (resp : Response) (es : Entries) : Entries :=
  es.filter (fun e => e.1.url != req.url) ++ [(req, resp)]

/-- Operation `cache.put` on the named generation of the store. -/
def cachePut (name : String) (req : Request) (resp : Response)
    (s : CacheStore) : CacheStore :=
  s.map (fun g => if g.1 == name then (g.1, putEntries req resp g.2) else g)

/-- The entry list of the named generation (empty if absent). -/
def cacheEntries (name : String) (s : CacheStore) : Entries :=
  ((s.find? (fun g => g.1 == name)).map (·.2)).getD []

/-- Operation `cache.keys()`: the requests of the named generation in insertion order. -/
def cacheKeys (name : String) (s : CacheStore) : List Request :=
  (cacheEntries name s).map (·.1)

/-- Operation `cache.delete(request)` on the named generation: removes the entries whose
URL matches. -/
def cacheDeleteEntry (name : String) (req : Request) (s : CacheStore) :
    CacheStore :=
  s.map (fun g =>
    if g.1 == name then (g.1, g.2.filter (fun e => e.1.url != req.url)) else g)

/-- The four outcomes of classification by the fetch listener's guard chain
(src/sw.js lines 35–39, 59, 75). -/
inductive Category where
  | bypass
  | imageCache
  | allowlisted
  | sameOrigin
deriving DecidableEq, Repr

/-- The bypass-marker test of src/sw.js line 36. -/
def authBypass (hostname : String) : Bool :=
  jsIncludes hostname "firebaseauth" || jsIncludes hostname "firestore" ||
  jsIncludes hostname "googleapis.com/identitytoolkit" ||
  jsIncludes hostname "securetoken"

/-- The guard chain of the fetch listener (src/sw.js lines 35–39, 59, 75),
first match wins. `selfOrigin` is `self.location.origin`. -/
def classify (selfOrigin : String) (req : Request) : Category :=
  if req.method != "GET" then .bypass
  else if authBypass req.hostname then .bypass
  else if jsIncludes req.hostname "api.unsplash.com" then .bypass
  else if jsIncludes req.hostname "images.unsplash.com" then .imageCache
  else if RUNTIME_CACHE_ORIGINS.any (fun origin => jsStartsWith req.url origin)
    then .allowlisted
  else if req.origin == selfOrigin then .sameOrigin
  else .bypass

/-- Result of the fetch listener: `passthrough` when `respondWith` was never
called (the request reaches the network unmodified), `responded r` when the
supplied promise resolved with `r`, `failed` when it resolved with no
response (the caller sees a network error). -/
inductive FetchOutcome where
  | passthrough
  | responded (r : Response)
  | failed
deriving DecidableEq, Repr

/-- A network: `none` models a rejected fetch. -/
abbrev Network := Request → Option Response

/-- The `images.unsplash.com` branch (src/sw.js lines 39–57): cache-first into
the bounded image cache, with the post-write eviction check of lines 48–49. -/
def imageStrategy (net : Network) (req : Request) (s : CacheStore) :
    FetchOutcome × CacheStore :=
  match cachesMatch req s with
  | some cached => (.responded cached, s)
  | none =>
    match net req with
    | none => (.failed, s)
    | some resp =>
      if resp.ok then
        let s1 := cachePut IMAGE_CACHE req resp (openCache IMAGE_CACHE s)
        let keys := cacheKeys IMAGE_CACHE s1
        let s2 :=
          if keys.length > IMAGE_CACHE_LIMIT then
            match keys with
            | k :: _ => cacheDeleteEntry IMAGE_CACHE k s1
            | [] => s1
          else s1
        (.responded resp, s2)
      else (.responded resp, s)

/-- The allowlist branch (src/sw.js lines 59–73): cache-first into the
current-version generation, no eviction. -/
def allowlistStrategy (net : Network) (req : Request) (s : CacheStore) :
    FetchOutcome × CacheStore :=
  match cachesMatch req s with
  | some cached => (.responded cached, s)
  | none =>
    match net req with
    | none => (.failed, s)
    | some resp =>
      if resp.ok then
        (.responded resp, cachePut CACHE_NAME req resp (openCache CACHE_NAME s))
      else (.responded resp, s)

/-- The same-origin branch (src/sw.js lines 75–88): network-first with
cache fallback via `caches.match` in the `catch`. -/
def sameOriginStrategy (net : Network) (req : Request) (s : CacheStore) :
    FetchOutcome × CacheStore :=
  match net req with
  | some resp =>
    if resp.ok then
      (.responded resp, cachePut CACHE_NAME req resp (openCache CACHE_NAME s))
    else (.responded resp, s)
  | none =>
    match cachesMatch req s with
    | some cached => (.responded cached, s)
    | none => (.failed, s)

/-- The whole fetch listener (src/sw.js lines 33–89). -/
def handleFetch (selfOrigin : String) (net : Network) (req : Request)
    (s : CacheStore) : FetchOutcome × CacheStore :=
  match classify selfOrigin req with
  | .bypass => (.passthrough, s)
  | .imageCache => imageStrategy net req s
  | .allowlisted => allowlistStrategy net req s
  | .sameOrigin => sameOriginStrategy net req s

/-- Run a sequence of fetches, threading the store. -/
def runFetches (selfOrigin : String) (net : Network) :
    List Request → CacheStore → CacheStore
  | [], s => s
  | r :: rs, s => runFetches selfOrigin net rs (handleFetch selfOrigin net r s).2

/-- Operation `cache.addAll(urls)` (src/sw.js line 20): fetches every URL; if any fetch
rejects or yields a non-ok response the whole operation rejects and nothing is
written; otherwise every response is put, in list order. The precache network
is keyed by URL; the stored request identity is a GET for that URL. -/
def precacheRequest (url : String) (selfOrigin : String) : Request :=
  { method := "GET", url := url, hostname := selfOrigin, origin := selfOrigin }

def addAll (net : String → Option Response) (selfOrigin : String)
    (urls : List String) (s : CacheStore) : Option CacheStore :=
  if urls.all (fun u => match net u with | some r => r.ok | none => false) then
    some (urls.foldl (fun acc u =>
      match net u with
      | some r => cachePut CACHE_NAME (precacheRequest u selfOrigin) r acc
      | none => acc) s)
  else none

/-- The install listener (src/sw.js lines 17–23): open the current-version
generation, `addAll` the precache list, then `skipWaiting`. Returns `none`
when provisioning fails (readiness is not signalled); on success the `Bool`
is `true` iff `skipWaiting` was invoked. -/
def install (net : String → Option Response) (selfOrigin : String)
    (s : CacheStore) : Option (CacheStore × Bool) :=
  match addAll net selfOrigin PRECACHE_URLS (openCache CACHE_NAME s) with
  | some s1 => some (s1, true)
  | none => none

/-- The activate listener (src/sw.js lines 25–31): delete every generation
whose name is neither `CACHE_NAME` nor `IMAGE_CACHE`, then `clients.claim`. -/
def rollover (s : CacheStore) : CacheStore :=
  s.filter (fun g => g.1 == CACHE_NAME || g.1 == IMAGE_CACHE)

/-- The activate listener with per-generation deletion outcomes made explicit:
`Promise.all` starts one `caches.delete` per stale generation before any
completes, so each deletion is attempted regardless of the others; a stale
generation whose deletion fails (`delOk` false) simply remains. -/
def rolloverPartial (delOk : String → Bool) (s : CacheStore) : CacheStore :=
  s.filter (fun g =>
    g.1 == CACHE_NAME || g.1 == IMAGE_CACHE || !delOk g.1)

end Folio

namespace Folio

/-! Store lemmas. -/

theorem cacheEntries_nil (n : String) : cacheEntries n ([] : CacheStore) = [] := rfl

theorem cacheEntries_cons (n : String) (g : String × Entries) (s : CacheStore) :
    cacheEntries n (g :: s) =
      if g.1 == n then g.2 else cacheEntries n s := by
  by_cases h : (g.1 == n) = true
  · simp [cacheEntries, List.find?, h]
  · simp only [Bool.not_eq_true] at h
    simp [cacheEntries, List.find?, h]

theorem cacheEntries_append_empty (n m : String) (s : CacheStore) :
    cacheEntries n (s ++ [(m, [])]) = cacheEntries n s := by
  induction s with
  | nil =>
    show cacheEntries n ((m, []) :: []) = cacheEntries n []
    rw [cacheEntries_cons]
    split <;> rfl
  | cons g rest ih =>
    rw [List.cons_append, cacheEntries_cons, cacheEntries_cons]
    split
    · rfl
    · exact ih

theorem cacheEntries_openCache (n m : String) (s : CacheStore) :
    cacheEntries n (openCache m s) = cacheEntries n s := by
  unfold openCache
  split
  · rfl
  · exact cacheEntries_append_empty n m s

end Folio

namespace Folio

theorem hasCache_openCache (name : String) (s : CacheStore) :
    hasCache name (openCache name s) = true := by
  unfold openCache
  split
  · assumption
  · simp [hasCache, List.any_append]

theorem hasCache_cachePut (name m : String) (req : Request) (resp : Response)
    (s : CacheStore) : hasCache name (cachePut m req resp s) = hasCache name s := by
  induction s with
  | nil => rfl
  | cons g rest ih =>
    show (((if g.1 == m then (g.1, putEntries req resp g.2) else g) ::
      rest.map _).any fun g => g.1 == name) = _
    by_cases h : (g.1 == m) = true <;>
      simp only [h, if_true, if_false, List.any_cons, Bool.false_and,
        reduceIte] <;>
      rw [show (rest.map fun g => if g.1 == m then (g.1, putEntries req resp g.2) else g).any (fun g => g.1 == name) = hasCache name (cachePut m req resp rest) from rfl, ih] <;>
      rfl

theorem cacheEntries_cachePut_self (name : String) (req : Request)
    (resp : Response) (s : CacheStore) (h : hasCache name s = true) :
    cacheEntries name (cachePut name req resp s) =
      putEntries req resp (cacheEntries name s) := by
  induction s with
  | nil => simp [hasCache] at h
  | cons g rest ih =>
    by_cases hg : (g.1 == name) = true
    · show cacheEntries name ((if g.1 == name then (g.1, putEntries req resp g.2) else g) :: _) = _
      rw [if_pos hg, cacheEntries_cons, cacheEntries_cons, if_pos hg, if_pos hg]
    · have hrest : hasCache name rest = true := by
        simp only [hasCache, List.any_cons, hg, Bool.false_or] at h
        exact h
      show cacheEntries name ((if g.1 == name then (g.1, putEntries req resp g.2) else g) :: _) = _
      rw [if_neg hg, cacheEntries_cons, cacheEntries_cons, if_neg hg, if_neg hg]
      exact ih hrest

theorem cacheEntries_cachePut_other (n m : String) (req : Request)
    (resp : Response) (s : CacheStore) (h : n ≠ m) :
    cacheEntries n (cachePut m req resp s) = cacheEntries n s := by
  induction s with
  | nil => rfl
  | cons g rest ih =>
    show cacheEntries n ((if g.1 == m then (g.1, putEntries req resp g.2) else g) :: _) = _
    by_cases hg : (g.1 == m) = true
    · rw [if_pos hg, cacheEntries_cons, cacheEntries_cons]
      have hgn : (g.1 == n) = false := by
        have hem : g.1 = m := eq_of_beq hg
        subst hem
        exact beq_eq_false_iff_ne.mpr (fun hh => h hh.symm)
      rw [hgn]
      simp only [if_false, Bool.false_eq_true]
      exact ih
    · rw [if_neg hg, cacheEntries_cons, cacheEntries_cons]
      split
      · rfl
      · exact ih

theorem cacheEntries_cacheDeleteEntry_self (name : String) (k : Request)
    (s : CacheStore) :
    cacheEntries name (cacheDeleteEntry name k s) =
      (cacheEntries name s).filter (fun e => e.1.url != k.url) := by
  induction s with
  | nil => rfl
  | cons g rest ih =>
    show cacheEntries name ((if g.1 == name then (g.1, g.2.filter _) else g) :: _) = _
    by_cases hg : (g.1 == name) = true
    · rw [if_pos hg, cacheEntries_cons, cacheEntries_cons, if_pos hg, if_pos hg]
    · rw [if_neg hg, cacheEntries_cons, cacheEntries_cons, if_neg hg, if_neg hg]
      exact ih

theorem cacheEntries_cacheDeleteEntry_other (n m : String) (k : Request)
    (s : CacheStore) (h : n ≠ m) :
    cacheEntries n (cacheDeleteEntry m k s) = cacheEntries n s := by
  induction s with
  | nil => rfl
  | cons g rest ih =>
    show cacheEntries n ((if g.1 == m then (g.1, g.2.filter _) else g) :: _) = _
    by_cases hg : (g.1 == m) = true
    · rw [if_pos hg, cacheEntries_cons, cacheEntries_cons]
      have hgn : (g.1 == n) = false := by
        have hem : g.1 = m := eq_of_beq hg
        subst hem
        exact beq_eq_false_iff_ne.mpr (fun hh => h hh.symm)
      rw [hgn]
      simp only [if_false, Bool.false_eq_true]
      exact ih
    · rw [if_neg hg, cacheEntries_cons, cacheEntries_cons]
      split
      · rfl
      · exact ih

end Folio

namespace Folio

theorem matchEntries_eq_none_iff (req : Request) (es : Entries) :
    matchEntries req es = none ↔ ∀ e ∈ es, (e.1.url == req.url) = false := by
  unfold matchEntries
  rw [Option.map_eq_none', List.find?_eq_none]
  constructor
  · intro h e he
    have := h e he
    simpa using this
  · intro h e he
    simp [h e he]

theorem cachesMatch_eq_none_iff (req : Request) (s : CacheStore) :
    cachesMatch req s = none ↔ ∀ g ∈ s, matchEntries req g.2 = none := by
  induction s with
  | nil => simp [cachesMatch]
  | cons g rest ih =>
    cases h : matchEntries req g.2 with
    | some r => simp [cachesMatch, h]
    | none => simp [cachesMatch, h, ih]

theorem matchEntries_filter_none (req : Request) (es : Entries)
    (p : Request × Response → Bool) (h : matchEntries req es = none) :
    matchEntries req (es.filter p) = none := by
  rw [matchEntries_eq_none_iff] at h ⊢
  intro e he
  exact h e (List.mem_of_mem_filter he)

theorem matchEntries_putEntries_none (req r : Request) (resp : Response)
    (es : Entries) (hne : r.url ≠ req.url) (h : matchEntries r es = none) :
    matchEntries r (putEntries req resp es) = none := by
  rw [matchEntries_eq_none_iff] at h ⊢
  intro e he
  unfold putEntries at he
  rcases List.mem_append.mp he with hl | hr
  · exact h e (List.mem_of_mem_filter hl)
  · have : e = (req, resp) := by simpa using hr
    subst this
    exact beq_eq_false_iff_ne.mpr (fun hh => hne hh.symm)

theorem matchEntries_append_self (req : Request) (resp : Response)
    (es : Entries) (h : matchEntries req es = none) :
    matchEntries req (es ++ [(req, resp)]) = some resp := by
  induction es with
  | nil => simp [matchEntries, List.find?]
  | cons e rest ih =>
    rw [matchEntries_eq_none_iff] at h
    have he : (e.1.url == req.url) = false := h e (by simp)
    have hrest : matchEntries req rest = none := by
      rw [matchEntries_eq_none_iff]
      intro x hx
      exact h x (by simp [hx])
    show matchEntries req (e :: (rest ++ [(req, resp)])) = some resp
    unfold matchEntries at ih ⊢
    rw [List.find?_cons_of_neg _ (by simp [he])]
    exact ih hrest

theorem matchEntries_putEntries_self (req : Request) (resp : Response)
    (es : Entries) : matchEntries req (putEntries req resp es) = some resp := by
  unfold putEntries
  apply matchEntries_append_self
  rw [matchEntries_eq_none_iff]
  intro e he
  have := (List.mem_filter.mp he).2
  simpa [bne] using this

/-- Lookup `caches.match` returns the target generation's match when every other
generation has no matching entry and the target's snapshot exists. -/
theorem cachesMatch_of_target_some (name : String) (req : Request)
    (resp : Response) (s : CacheStore)
    (hside : ∀ g ∈ s, g.1 ≠ name → matchEntries req g.2 = none)
    (hself : matchEntries req (cacheEntries name s) = some resp) :
    cachesMatch req s = some resp := by
  induction s with
  | nil => simp [cacheEntries_nil, matchEntries, List.find?] at hself
  | cons g rest ih =>
    rw [cacheEntries_cons] at hself
    by_cases hg : (g.1 == name) = true
    · rw [if_pos hg] at hself
      show cachesMatch req (g :: rest) = some resp
      unfold cachesMatch
      rw [hself]
    · rw [if_neg hg] at hself
      show cachesMatch req (g :: rest) = some resp
      unfold cachesMatch
      rw [hside g (by simp) (by simpa using hg)]
      exact ih (fun g' hg' => hside g' (by simp [hg'])) hself

/-- With no duplicate generation names and no match outside the target
generation, a miss in the target generation is a global miss. -/
theorem cachesMatch_of_target_none (name : String) (req : Request)
    (s : CacheStore) (hnd : (s.map (fun g => g.1)).Nodup)
    (hside : ∀ g ∈ s, g.1 ≠ name → matchEntries req g.2 = none)
    (hself : matchEntries req (cacheEntries name s) = none) :
    cachesMatch req s = none := by
  induction s with
  | nil => rfl
  | cons g rest ih =>
    rw [cacheEntries_cons] at hself
    rw [List.map_cons, List.nodup_cons] at hnd
    by_cases hg : (g.1 == name) = true
    · rw [if_pos hg] at hself
      show cachesMatch req (g :: rest) = none
      unfold cachesMatch
      rw [hself]
      rw [cachesMatch_eq_none_iff]
      intro g' hg'
      apply hside g' (by simp [hg'])
      have hgname : g.1 = name := eq_of_beq hg
      intro heq
      apply hnd.1
      have hmem : g'.1 ∈ List.map (fun g => g.1) rest := List.mem_map_of_mem _ hg'
      rw [heq] at hmem
      rw [hgname]
      exact hmem
    · rw [if_neg hg] at hself
      show cachesMatch req (g :: rest) = none
      unfold cachesMatch
      rw [hside g (by simp) (by simpa using hg)]
      exact ih hnd.2 (fun g' hg' h' => hside g' (by simp [hg']) h') hself

end Folio

namespace Folio

theorem cachesMatch_none_openCache (m : String) (r : Request) (s : CacheStore)
    (h : cachesMatch r s = none) : cachesMatch r (openCache m s) = none := by
  unfold openCache
  split
  · exact h
  · rw [cachesMatch_eq_none_iff] at h ⊢
    intro g hg
    rcases List.mem_append.mp hg with hl | hr
    · exact h g hl
    · have : g = (m, []) := by simpa using hr
      subst this
      rfl

theorem cachesMatch_none_cachePut (m : String) (req r : Request)
    (resp : Response) (s : CacheStore) (hne : r.url ≠ req.url)
    (h : cachesMatch r s = none) :
    cachesMatch r (cachePut m req resp s) = none := by
  rw [cachesMatch_eq_none_iff] at h ⊢
  intro g hg
  rcases List.mem_map.mp hg with ⟨g0, hg0, heq⟩
  by_cases hm : (g0.1 == m) = true
  · rw [if_pos hm] at heq
    subst heq
    exact matchEntries_putEntries_none req r resp g0.2 hne (h g0 hg0)
  · rw [if_neg hm] at heq
    subst heq
    exact h g0 hg0

theorem cachesMatch_none_cacheDeleteEntry (m : String) (k r : Request)
    (s : CacheStore) (h : cachesMatch r s = none) :
    cachesMatch r (cacheDeleteEntry m k s) = none := by
  rw [cachesMatch_eq_none_iff] at h ⊢
  intro g hg
  rcases List.mem_map.mp hg with ⟨g0, hg0, heq⟩
  by_cases hm : (g0.1 == m) = true
  · rw [if_pos hm] at heq
    subst heq
    exact matchEntries_filter_none r g0.2 _ (h g0 hg0)
  · rw [if_neg hm] at heq
    subst heq
    exact h g0 hg0

theorem mem_openCache_of_ne (m : String) (g : String × Entries) (s : CacheStore)
    (hg : g ∈ openCache m s) (hne : g.1 ≠ m) : g ∈ s := by
  unfold openCache at hg
  split at hg
  · exact hg
  · rcases List.mem_append.mp hg with hl | hr
    · exact hl
    · exfalso
      apply hne
      have : g = (m, []) := by simpa using hr
      rw [this]

theorem mem_cachePut_of_ne (m : String) (req : Request) (resp : Response)
    (g : String × Entries) (s : CacheStore)
    (hg : g ∈ cachePut m req resp s) (hne : g.1 ≠ m) : g ∈ s := by
  rcases List.mem_map.mp hg with ⟨g0, hg0, heq⟩
  by_cases hm : (g0.1 == m) = true
  · rw [if_pos hm] at heq
    exfalso
    apply hne
    rw [← heq]
    exact eq_of_beq hm
  · rw [if_neg hm] at heq
    subst heq
    exact hg0

theorem mem_cacheDeleteEntry_of_ne (m : String) (k : Request)
    (g : String × Entries) (s : CacheStore)
    (hg : g ∈ cacheDeleteEntry m k s) (hne : g.1 ≠ m) : g ∈ s := by
  rcases List.mem_map.mp hg with ⟨g0, hg0, heq⟩
  by_cases hm : (g0.1 == m) = true
  · rw [if_pos hm] at heq
    exfalso
    apply hne
    rw [← heq]
    exact eq_of_beq hm
  · rw [if_neg hm] at heq
    subst heq
    exact hg0

end Folio

namespace Folio

theorem matchEntries_cacheEntries_none (name : String) (req : Request)
    (s : CacheStore) (h : cachesMatch req s = none) :
    matchEntries req (cacheEntries name s) = none := by
  rw [cachesMatch_eq_none_iff] at h
  unfold cacheEntries
  cases hf : s.find? (fun g => g.1 == name) with
  | none => rfl
  | some g => exact h g (List.mem_of_find?_eq_some hf)

theorem filter_ne_of_matchEntries_none (req : Request) (es : Entries)
    (h : matchEntries req es = none) :
    es.filter (fun e => e.1.url != req.url) = es := by
  rw [matchEntries_eq_none_iff] at h
  apply List.filter_eq_self.mpr
  intro e he
  simp [bne, h e he]

theorem imageStrategy_red (net : Network) (req : Request) (resp : Response)
    (s : CacheStore) (hmiss : cachesMatch req s = none)
    (hnet : net req = some resp) (hok : resp.ok = true) :
    imageStrategy net req s =
      (FetchOutcome.responded resp,
        if (cacheKeys IMAGE_CACHE (cachePut IMAGE_CACHE req resp
              (openCache IMAGE_CACHE s))).length > IMAGE_CACHE_LIMIT then
          match cacheKeys IMAGE_CACHE (cachePut IMAGE_CACHE req resp
              (openCache IMAGE_CACHE s)) with
          | k :: _ => cacheDeleteEntry IMAGE_CACHE k
              (cachePut IMAGE_CACHE req resp (openCache IMAGE_CACHE s))
          | [] => cachePut IMAGE_CACHE req resp (openCache IMAGE_CACHE s)
        else cachePut IMAGE_CACHE req resp (openCache IMAGE_CACHE s)) := by
  unfold imageStrategy
  rw [hmiss, hnet]
  show (if resp.ok = true then _ else _) = _
  rw [if_pos hok]

/-- The image generation's entry list after one cache-first write followed by
the eviction check of src/sw.js lines 48–49, starting from an entry list `es`
holding no entry for the written URL. -/
def evictEntries (req : Request) (resp : Response) (es : Entries) : Entries :=
  if (es ++ [(req, resp)]).length > IMAGE_CACHE_LIMIT then
    match es with
    | h :: _ => (es ++ [(req, resp)]).filter (fun e => e.1.url != h.1.url)
    | [] => es ++ [(req, resp)]
  else es ++ [(req, resp)]

/-- One image-branch step on a cache miss with an ok network response: the
caller gets the network response, every other generation is untouched, the
image generation becomes `evictEntries` of its old entry list, and a miss for
any other URL stays a miss. -/
theorem imageStrategy_spec (net : Network) (req : Request) (resp : Response)
    (s : CacheStore) (hmiss : cachesMatch req s = none)
    (hnet : net req = some resp) (hok : resp.ok = true) :
    (imageStrategy net req s).1 = .responded resp
    ∧ (∀ n, n ≠ IMAGE_CACHE →
        cacheEntries n (imageStrategy net req s).2 = cacheEntries n s)
    ∧ cacheEntries IMAGE_CACHE (imageStrategy net req s).2
        = evictEntries req resp (cacheEntries IMAGE_CACHE s)
    ∧ (∀ r' : Request, r'.url ≠ req.url → cachesMatch r' s = none →
        cachesMatch r' (imageStrategy net req s).2 = none)
    ∧ (∀ g ∈ (imageStrategy net req s).2, g.1 ≠ IMAGE_CACHE → g ∈ s) := by
  have hred := imageStrategy_red net req resp s hmiss hnet hok
  have hEnone : matchEntries req (cacheEntries IMAGE_CACHE s) = none :=
    matchEntries_cacheEntries_none _ _ _ hmiss
  have hhas1 : hasCache IMAGE_CACHE (openCache IMAGE_CACHE s) = true :=
    hasCache_openCache _ _
  set s1 := cachePut IMAGE_CACHE req resp (openCache IMAGE_CACHE s) with hs1
  have hE1 : cacheEntries IMAGE_CACHE s1
      = cacheEntries IMAGE_CACHE s ++ [(req, resp)] := by
    rw [hs1, cacheEntries_cachePut_self _ _ _ _ hhas1, cacheEntries_openCache]
    unfold putEntries
    rw [filter_ne_of_matchEntries_none _ _ hEnone]
  have hkeys : cacheKeys IMAGE_CACHE s1
      = (cacheEntries IMAGE_CACHE s ++ [(req, resp)]).map (fun e => e.1) := by
    unfold cacheKeys
    rw [hE1]
  have hother1 : ∀ n, n ≠ IMAGE_CACHE → cacheEntries n s1 = cacheEntries n s := by
    intro n hn
    rw [hs1, cacheEntries_cachePut_other _ _ _ _ _ hn, cacheEntries_openCache]
  have hfresh1 : ∀ r' : Request, r'.url ≠ req.url → cachesMatch r' s = none →
      cachesMatch r' s1 = none := by
    intro r' hr hnone
    exact cachesMatch_none_cachePut _ _ _ _ _ hr
      (cachesMatch_none_openCache _ _ _ hnone)
  have hmem1 : ∀ g ∈ s1, g.1 ≠ IMAGE_CACHE → g ∈ s := by
    intro g hg hne
    rw [hs1] at hg
    exact mem_openCache_of_ne _ _ _ (mem_cachePut_of_ne _ _ _ _ _ hg hne) hne
  rw [hred, hkeys]
  by_cases hlen : (cacheEntries IMAGE_CACHE s).length + 1 > IMAGE_CACHE_LIMIT
  · have hcond : ((cacheEntries IMAGE_CACHE s ++ [(req, resp)]).map
        (fun e => e.1)).length > IMAGE_CACHE_LIMIT := by
      simpa using hlen
    rw [if_pos hcond]
    rcases hE : cacheEntries IMAGE_CACHE s with _ | ⟨h, t⟩
    · rw [hE] at hlen
      simp [IMAGE_CACHE_LIMIT] at hlen
    · rw [hE] at hE1 hkeys hlen
      simp only [List.cons_append, List.map_cons]
      refine ⟨trivial, ?_, ?_, ?_, ?_⟩
      · intro n hn
        rw [cacheEntries_cacheDeleteEntry_other _ _ _ _ hn]
        exact hother1 n hn
      · rw [cacheEntries_cacheDeleteEntry_self, hE1]
        unfold evictEntries
        rw [if_pos (by simpa using hlen)]
      · intro r' hr hnone
        exact cachesMatch_none_cacheDeleteEntry _ _ _ _ (hfresh1 r' hr hnone)
      · intro g hg hne
        exact hmem1 g (mem_cacheDeleteEntry_of_ne _ _ _ _ hg hne) hne
  · have hcond : ¬ (((cacheEntries IMAGE_CACHE s ++ [(req, resp)]).map
        (fun e => e.1)).length > IMAGE_CACHE_LIMIT) := by
      simpa using hlen
    rw [if_neg hcond]
    refine ⟨rfl, ?_, ?_, ?_, ?_⟩
    · exact hother1
    · rw [hE1]
      unfold evictEntries
      rw [if_neg (by simpa using hlen)]
    · exact hfresh1
    · exact hmem1

end Folio

namespace Folio

theorem handleFetch_image (selfOrigin : String) (net : Network) (req : Request)
    (s : CacheStore) (h : classify selfOrigin req = .imageCache) :
    handleFetch selfOrigin net req s = imageStrategy net req s := by
  unfold handleFetch
  rw [h]

theorem handleFetch_allowlisted (selfOrigin : String) (net : Network)
    (req : Request) (s : CacheStore)
    (h : classify selfOrigin req = .allowlisted) :
    handleFetch selfOrigin net req s = allowlistStrategy net req s := by
  unfold handleFetch
  rw [h]

theorem handleFetch_sameOrigin (selfOrigin : String) (net : Network)
    (req : Request) (s : CacheStore)
    (h : classify selfOrigin req = .sameOrigin) :
    handleFetch selfOrigin net req s = sameOriginStrategy net req s := by
  unfold handleFetch
  rw [h]

theorem handleFetch_bypass (selfOrigin : String) (net : Network) (req : Request)
    (s : CacheStore) (h : classify selfOrigin req = .bypass) :
    handleFetch selfOrigin net req s = (.passthrough, s) := by
  unfold handleFetch
  rw [h]

/-- URL evolution of the image generation under one fresh write: append the
new URL, and when the bound is exceeded the eviction deletes exactly the
earliest-inserted entry (the head). -/
theorem evictEntries_urls (req : Request) (resp : Response) (es : Entries)
    (hnd : (es.map (fun e => e.1.url) ++ [req.url]).Nodup) :
    (evictEntries req resp es).map (fun e => e.1.url)
      = if es.length + 1 > IMAGE_CACHE_LIMIT
        then (es.map (fun e => e.1.url) ++ [req.url]).drop 1
        else es.map (fun e => e.1.url) ++ [req.url] := by
  rcases List.nodup_append.mp hnd with ⟨hndes, _, hdisj⟩
  unfold evictEntries
  simp only [List.length_append, List.length_cons, List.length_nil,
    Nat.zero_add]
  by_cases hc : es.length + 1 > IMAGE_CACHE_LIMIT
  · rw [if_pos hc, if_pos hc]
    rcases es with _ | ⟨h, t⟩
    · simp [IMAGE_CACHE_LIMIT] at hc
    · rw [List.map_cons, List.nodup_cons] at hndes
      have hhead : ∀ e ∈ t ++ [(req, resp)], (e.1.url != h.1.url) = true := by
        intro e he
        rcases List.mem_append.mp he with hl | hr
        · have : e.1.url ∈ t.map (fun e => e.1.url) := List.mem_map_of_mem _ hl
          rw [bne_iff_ne]
          intro heq
          rw [heq] at this
          exact hndes.1 this
        · have heq2 : e = (req, resp) := by simpa using hr
          subst heq2
          rw [bne_iff_ne]
          intro heq
          have hmem : req.url ∈ List.map (fun e => e.1.url) (h :: t) := by
            rw [heq, List.map_cons]
            exact List.mem_cons_self _ _
          exact hdisj hmem (by simp)
      show List.map (fun e => e.1.url)
          (List.filter (fun e => e.1.url != h.1.url) ((h :: t) ++ [(req, resp)]))
        = List.drop 1 (List.map (fun e => e.1.url) (h :: t) ++ [req.url])
      rw [List.cons_append, List.filter_cons_of_neg (by simp),
        List.filter_eq_self.mpr hhead]
      simp [List.drop_one]
  · rw [if_neg hc, if_neg hc]
    simp

end Folio

namespace Folio

/-- URL evolution of the image generation over a whole sequence of distinct,
fresh, successful image fetches: the generation always holds the most recent
`IMAGE_CACHE_LIMIT` URLs of the insertion sequence, in insertion order. -/
theorem imageRun_urls (selfOrigin : String) (net : Network) (reqs : List Request) :
    ∀ s : CacheStore,
    (∀ r ∈ reqs, classify selfOrigin r = .imageCache) →
    (∀ r ∈ reqs, ∃ resp, net r = some resp ∧ resp.ok = true) →
    (∀ r ∈ reqs, cachesMatch r s = none) →
    ((cacheEntries IMAGE_CACHE s).map (fun e => e.1.url)
       ++ reqs.map (fun r => r.url)).Nodup →
    (cacheEntries IMAGE_CACHE s).length ≤ IMAGE_CACHE_LIMIT →
    (cacheEntries IMAGE_CACHE (runFetches selfOrigin net reqs s)).map
        (fun e => e.1.url)
      = ((cacheEntries IMAGE_CACHE s).map (fun e => e.1.url)
           ++ reqs.map (fun r => r.url)).drop
          ((cacheEntries IMAGE_CACHE s).length + reqs.length
            - IMAGE_CACHE_LIMIT) := by
  induction reqs with
  | nil =>
    intro s _ _ _ _ hlen
    show (cacheEntries IMAGE_CACHE s).map _ = _
    simp only [List.map_nil, List.append_nil, List.length_nil, Nat.add_zero]
    have hz : (cacheEntries IMAGE_CACHE s).length - IMAGE_CACHE_LIMIT = 0 := by
      omega
    rw [hz, List.drop_zero]
  | cons r rs ih =>
    intro s hcat hok hfresh hnd hlen
    obtain ⟨resp, hnet, hrok⟩ := hok r (by simp)
    have hc : classify selfOrigin r = .imageCache := hcat r (by simp)
    have hm : cachesMatch r s = none := hfresh r (by simp)
    obtain ⟨hout, hother, hself, hpres, hmem⟩ := imageStrategy_spec net r resp s hm hnet hrok
    have hrun : runFetches selfOrigin net (r :: rs) s
        = runFetches selfOrigin net rs (imageStrategy net r s).2 := by
      show runFetches selfOrigin net rs (handleFetch selfOrigin net r s).2 = _
      rw [handleFetch_image _ _ _ _ hc]
    rw [List.map_cons] at hnd
    have hnd1 : ((cacheEntries IMAGE_CACHE s).map (fun e => e.1.url)
        ++ [r.url]).Nodup := by
      apply List.Nodup.sublist _ hnd
      apply List.Sublist.append_left
      exact (List.nil_sublist _).cons₂ _
    have hndr : (r.url :: rs.map (fun r => r.url)).Nodup :=
      List.Nodup.sublist (List.sublist_append_right _ _) hnd
    have hrne : ∀ r' ∈ rs, r'.url ≠ r.url := by
      intro r' h' heq
      rcases List.nodup_cons.mp hndr with ⟨hnotin, _⟩
      apply hnotin
      rw [← heq]
      exact List.mem_map_of_mem _ h'
    have hE' : cacheEntries IMAGE_CACHE (imageStrategy net r s).2
        = evictEntries r resp (cacheEntries IMAGE_CACHE s) := hself
    have hE'urls := evictEntries_urls r resp (cacheEntries IMAGE_CACHE s) hnd1
    have hfresh' : ∀ r' ∈ rs, cachesMatch r' (imageStrategy net r s).2 = none :=
      fun r' h' => hpres r' (hrne r' h') (hfresh r' (by simp [h']))
    by_cases hover : (cacheEntries IMAGE_CACHE s).length + 1 > IMAGE_CACHE_LIMIT
    · -- the bound is hit: the eviction deletes the earliest-inserted entry
      rw [if_pos hover] at hE'urls
      have hlen100 : (cacheEntries IMAGE_CACHE s).length = IMAGE_CACHE_LIMIT := by
        omega
      have hXlen : ((cacheEntries IMAGE_CACHE s).map (fun e => e.1.url)
          ++ [r.url]).length = IMAGE_CACHE_LIMIT + 1 := by
        simp [hlen100]
      have hnd' : ((cacheEntries IMAGE_CACHE (imageStrategy net r s).2).map
          (fun e => e.1.url) ++ rs.map (fun r => r.url)).Nodup := by
        rw [hE', hE'urls]
        apply List.Nodup.sublist _ hnd
        have h1 : List.Sublist (((cacheEntries IMAGE_CACHE s).map
            (fun e => e.1.url) ++ [r.url]).drop 1)
            ((cacheEntries IMAGE_CACHE s).map (fun e => e.1.url) ++ [r.url]) :=
          List.drop_sublist _ _
        have h2 := h1.append_right (rs.map (fun r => r.url))
        rw [List.append_assoc, List.singleton_append] at h2
        exact h2
      have hlen' : (cacheEntries IMAGE_CACHE (imageStrategy net r s).2).length
          ≤ IMAGE_CACHE_LIMIT := by
        have : (cacheEntries IMAGE_CACHE (imageStrategy net r s).2).length
            = ((cacheEntries IMAGE_CACHE (imageStrategy net r s).2).map
                (fun e => e.1.url)).length := (List.length_map _ _).symm
        rw [this, hE', hE'urls, List.length_drop, hXlen]
        omega
      have hres := ih (imageStrategy net r s).2 (fun r' h' => hcat r' (by simp [h']))
        (fun r' h' => hok r' (by simp [h'])) hfresh' hnd' hlen'
      rw [hrun, hres, hE', hE'urls]
      have hlenE2 : (evictEntries r resp (cacheEntries IMAGE_CACHE s)).length
          = IMAGE_CACHE_LIMIT := by
        have h3 : (evictEntries r resp (cacheEntries IMAGE_CACHE s)).length
            = ((evictEntries r resp (cacheEntries IMAGE_CACHE s)).map
                (fun e => e.1.url)).length := (List.length_map _ _).symm
        rw [h3, hE'urls, List.length_drop, hXlen]
        omega
      rw [hlenE2,
        ← List.drop_append_of_le_length (by rw [hXlen]; omega),
        List.append_assoc, List.singleton_append, List.drop_drop]
      have harith : 1 + (IMAGE_CACHE_LIMIT + rs.length - IMAGE_CACHE_LIMIT)
          = (cacheEntries IMAGE_CACHE s).length + (r :: rs).length
            - IMAGE_CACHE_LIMIT := by
        simp only [List.length_cons]
        omega
      rw [harith, List.map_cons]
    · -- under the bound: plain append, no eviction
      rw [if_neg hover] at hE'urls
      have hnd' : ((cacheEntries IMAGE_CACHE (imageStrategy net r s).2).map
          (fun e => e.1.url) ++ rs.map (fun r => r.url)).Nodup := by
        rw [hE', hE'urls, List.append_assoc, List.singleton_append]
        exact hnd
      have hlen' : (cacheEntries IMAGE_CACHE (imageStrategy net r s).2).length
          ≤ IMAGE_CACHE_LIMIT := by
        have : (cacheEntries IMAGE_CACHE (imageStrategy net r s).2).length
            = ((cacheEntries IMAGE_CACHE (imageStrategy net r s).2).map
                (fun e => e.1.url)).length := (List.length_map _ _).symm
        rw [this, hE', hE'urls]
        simp only [List.length_append, List.length_map, List.length_cons,
          List.length_nil]
        omega
      have hres := ih (imageStrategy net r s).2 (fun r' h' => hcat r' (by simp [h']))
        (fun r' h' => hok r' (by simp [h'])) hfresh' hnd' hlen'
      rw [hrun, hres, hE', hE'urls]
      have hlenE' : (evictEntries r resp (cacheEntries IMAGE_CACHE s)).length
          = (cacheEntries IMAGE_CACHE s).length + 1 := by
        have h2 : (evictEntries r resp (cacheEntries IMAGE_CACHE s)).length
            = ((evictEntries r resp (cacheEntries IMAGE_CACHE s)).map
                (fun e => e.1.url)).length := (List.length_map _ _).symm
        rw [h2, hE'urls]
        simp only [List.length_append, List.length_map, List.length_cons,
          List.length_nil]
      rw [hlenE', List.append_assoc, List.singleton_append]
      have harith : (cacheEntries IMAGE_CACHE s).length + 1 + rs.length
          - IMAGE_CACHE_LIMIT
          = (cacheEntries IMAGE_CACHE s).length + (r :: rs).length
            - IMAGE_CACHE_LIMIT := by
        simp only [List.length_cons]
        omega
      rw [harith, List.map_cons]

end Folio

namespace Folio

/-- Claim C1: after a sequence of N > 100 successful image fetches with pairwise
distinct, previously uncached request identities, the image generation holds
exactly 100 entries, and after every prefix of the sequence the generation
holds exactly the most recent min(inserted, 100) URLs in insertion order — so
each write beyond the bound evicts precisely the earliest-inserted entry
currently held (FIFO, one deletion per write). -/
theorem image_cache_fifo_eviction (selfOrigin : String) (net : Network)
    (reqs : List Request) (s : CacheStore)
    (hcat : ∀ r ∈ reqs, classify selfOrigin r = .imageCache)
    (hok : ∀ r ∈ reqs, ∃ resp, net r = some resp ∧ resp.ok = true)
    (hfresh : ∀ r ∈ reqs, cachesMatch r s = none)
    (hnd : ((cacheEntries IMAGE_CACHE s).map (fun e => e.1.url)
       ++ reqs.map (fun r => r.url)).Nodup)
    (hlen : (cacheEntries IMAGE_CACHE s).length ≤ IMAGE_CACHE_LIMIT)
    (hN : reqs.length > IMAGE_CACHE_LIMIT) :
    (cacheEntries IMAGE_CACHE (runFetches selfOrigin net reqs s)).length
        = IMAGE_CACHE_LIMIT
    ∧ ∀ k ≤ reqs.length,
        (cacheEntries IMAGE_CACHE
            (runFetches selfOrigin net (reqs.take k) s)).map (fun e => e.1.url)
          = ((cacheEntries IMAGE_CACHE s).map (fun e => e.1.url)
               ++ (reqs.take k).map (fun r => r.url)).drop
              ((cacheEntries IMAGE_CACHE s).length + k - IMAGE_CACHE_LIMIT) := by
  constructor
  · have h := imageRun_urls selfOrigin net reqs s hcat hok hfresh hnd hlen
    have hlenmap : (cacheEntries IMAGE_CACHE
        (runFetches selfOrigin net reqs s)).length
        = ((cacheEntries IMAGE_CACHE (runFetches selfOrigin net reqs s)).map
            (fun e => e.1.url)).length := (List.length_map _ _).symm
    rw [hlenmap, h, List.length_drop, List.length_append, List.length_map,
      List.length_map]
    omega
  · intro k hk
    have hsub : ∀ r ∈ reqs.take k, r ∈ reqs := fun r h => List.take_subset _ _ h
    have hndk : ((cacheEntries IMAGE_CACHE s).map (fun e => e.1.url)
        ++ (reqs.take k).map (fun r => r.url)).Nodup := by
      apply List.Nodup.sublist _ hnd
      apply List.Sublist.append_left
      rw [List.map_take]
      exact List.take_sublist _ _
    have h := imageRun_urls selfOrigin net (reqs.take k) s
      (fun r h' => hcat r (hsub r h')) (fun r h' => hok r (hsub r h'))
      (fun r h' => hfresh r (hsub r h')) hndk hlen
    rw [h, List.length_take, Nat.min_eq_left hk]

end Folio

namespace Folio

/-- A family of pairwise-distinct image-CDN request identities. -/
def witURL (i : Nat) : String :=
  String.mk ("https://images.unsplash.com/photo".data ++ List.replicate i 'a')

def witReq (i : Nat) : Request :=
  { method := "GET"
    url := witURL i
    hostname := "images.unsplash.com"
    origin := "https://images.unsplash.com" }

/-- A list of 101 distinct image requests. -/
def witReqs : List Request := (List.range 101).map witReq

/-- A network that always succeeds with an ok response. -/
def witNet : Network := fun _ => some { ok := true, body := 0 }

theorem witURL_injective : Function.Injective witURL := by
  intro i j h
  unfold witURL at h
  have hdata := congrArg String.data h
  simp only [String.data] at hdata
  have hrep := List.append_cancel_left hdata
  have := congrArg List.length hrep
  simpa using this

theorem image_cache_fifo_eviction_witness :
    (cacheEntries IMAGE_CACHE
      (runFetches "https://matt-10013.github.io" witNet witReqs [])).length
      = IMAGE_CACHE_LIMIT := by
  have hnd : (([] : Entries).map (fun e => e.1.url)
      ++ witReqs.map (fun r => r.url)).Nodup := by
    simp only [List.map_nil, List.nil_append, witReqs, List.map_map]
    exact (List.nodup_range 101).map (fun i j h => witURL_injective h)
  have h := image_cache_fifo_eviction "https://matt-10013.github.io" witNet
    witReqs []
    (by
      intro r hr
      obtain ⟨i, _, rfl⟩ := List.mem_map.mp hr
      rfl)
    (fun r _ => ⟨{ ok := true, body := 0 }, rfl, rfl⟩)
    (fun r _ => rfl)
    hnd
    (by simp [cacheEntries_nil])
    (by simp [witReqs, IMAGE_CACHE_LIMIT])
  exact h.1

/-! Reduction lemmas for the three strategies. -/

theorem imageStrategy_hit (net : Network) (req : Request) (s : CacheStore)
    (c : Response) (h : cachesMatch req s = some c) :
    imageStrategy net req s = (.responded c, s) := by
  unfold imageStrategy
  rw [h]

theorem imageStrategy_fail (net : Network) (req : Request) (s : CacheStore)
    (hm : cachesMatch req s = none) (hnet : net req = none) :
    imageStrategy net req s = (.failed, s) := by
  unfold imageStrategy
  rw [hm, hnet]

theorem imageStrategy_notOk (net : Network) (req : Request) (s : CacheStore)
    (resp : Response) (hm : cachesMatch req s = none)
    (hnet : net req = some resp) (hok : resp.ok = false) :
    imageStrategy net req s = (.responded resp, s) := by
  unfold imageStrategy
  rw [hm, hnet]
  show (if resp.ok = true then _ else _) = _
  rw [if_neg (by simp [hok])]

theorem allowlistStrategy_hit (net : Network) (req : Request) (s : CacheStore)
    (c : Response) (h : cachesMatch req s = some c) :
    allowlistStrategy net req s = (.responded c, s) := by
  unfold allowlistStrategy
  rw [h]

theorem allowlistStrategy_fail (net : Network) (req : Request) (s : CacheStore)
    (hm : cachesMatch req s = none) (hnet : net req = none) :
    allowlistStrategy net req s = (.failed, s) := by
  unfold allowlistStrategy
  rw [hm, hnet]

theorem allowlistStrategy_notOk (net : Network) (req : Request) (s : CacheStore)
    (resp : Response) (hm : cachesMatch req s = none)
    (hnet : net req = some resp) (hok : resp.ok = false) :
    allowlistStrategy net req s = (.responded resp, s) := by
  unfold allowlistStrategy
  rw [hm, hnet]
  show (if resp.ok = true then _ else _) = _
  rw [if_neg (by simp [hok])]

theorem allowlistStrategy_ok (net : Network) (req : Request) (s : CacheStore)
    (resp : Response) (hm : cachesMatch req s = none)
    (hnet : net req = some resp) (hok : resp.ok = true) :
    allowlistStrategy net req s
      = (.responded resp, cachePut CACHE_NAME req resp (openCache CACHE_NAME s)) := by
  unfold allowlistStrategy
  rw [hm, hnet]
  show (if resp.ok = true then _ else _) = _
  rw [if_pos hok]

theorem sameOriginStrategy_ok (net : Network) (req : Request) (s : CacheStore)
    (resp : Response) (hnet : net req = some resp) (hok : resp.ok = true) :
    sameOriginStrategy net req s
      = (.responded resp, cachePut CACHE_NAME req resp (openCache CACHE_NAME s)) := by
  unfold sameOriginStrategy
  rw [hnet]
  show (if resp.ok = true then _ else _) = _
  rw [if_pos hok]

theorem sameOriginStrategy_notOk (net : Network) (req : Request) (s : CacheStore)
    (resp : Response) (hnet : net req = some resp) (hok : resp.ok = false) :
    sameOriginStrategy net req s = (.responded resp, s) := by
  unfold sameOriginStrategy
  rw [hnet]
  show (if resp.ok = true then _ else _) = _
  rw [if_neg (by simp [hok])]

theorem sameOriginStrategy_fallback_hit (net : Network) (req : Request)
    (s : CacheStore) (c : Response) (hnet : net req = none)
    (hm : cachesMatch req s = some c) :
    sameOriginStrategy net req s = (.responded c, s) := by
  unfold sameOriginStrategy
  rw [hnet, hm]

theorem sameOriginStrategy_fallback_miss (net : Network) (req : Request)
    (s : CacheStore) (hnet : net req = none) (hm : cachesMatch req s = none) :
    sameOriginStrategy net req s = (.failed, s) := by
  unfold sameOriginStrategy
  rw [hnet, hm]

end Folio

namespace Folio

theorem matchEntries_evictEntries_self (req : Request) (resp : Response)
    (es : Entries) (h : matchEntries req es = none) :
    matchEntries req (evictEntries req resp es) = some resp := by
  unfold evictEntries
  by_cases hc : (es ++ [(req, resp)]).length > IMAGE_CACHE_LIMIT
  · rw [if_pos hc]
    rcases es with _ | ⟨h0, t⟩
    · simp [IMAGE_CACHE_LIMIT] at hc
    · show matchEntries req
        (List.filter (fun e => e.1.url != h0.1.url) ((h0 :: t) ++ [(req, resp)]))
        = some resp
      rw [List.filter_append]
      have hne : (req.url != h0.1.url) = true := by
        rw [matchEntries_eq_none_iff] at h
        have := h h0 (by simp)
        rw [bne_iff_ne]
        intro heq
        rw [← heq] at this
        simp at this
      rw [show List.filter (fun e => e.1.url != h0.1.url) [(req, resp)]
          = [(req, resp)] by simp [hne]]
      exact matchEntries_append_self _ _ _
        (matchEntries_filter_none _ _ _ h)
  · rw [if_neg hc]
    exact matchEntries_append_self _ _ _ h

/-- Claim C8: once a first image fetch for an identity has succeeded and its
snapshot store has completed, a second invocation for the same identity is
answered from cache with that snapshot and never consults the network: its
result is the same for every network. -/
theorem image_repeat_request_cached (selfOrigin : String) (net1 : Network)
    (req : Request) (s : CacheStore) (resp : Response)
    (hcat : classify selfOrigin req = .imageCache)
    (hmiss : cachesMatch req s = none)
    (hnet : net1 req = some resp) (hok : resp.ok = true) :
    ∀ net2 : Network,
      handleFetch selfOrigin net2 req (handleFetch selfOrigin net1 req s).2
        = (.responded resp, (handleFetch selfOrigin net1 req s).2) := by
  intro net2
  rw [handleFetch_image selfOrigin net1 req s hcat]
  obtain ⟨hout, hother, hself, hpres, hmem⟩ :=
    imageStrategy_spec net1 req resp s hmiss hnet hok
  have hmatch : cachesMatch req (imageStrategy net1 req s).2 = some resp := by
    apply cachesMatch_of_target_some IMAGE_CACHE req resp
    · intro g hg hne
      have hgs := hmem g hg hne
      exact (cachesMatch_eq_none_iff req s).mp hmiss g hgs
    · rw [hself]
      exact matchEntries_evictEntries_self req resp _
        (matchEntries_cacheEntries_none _ _ _ hmiss)
  rw [handleFetch_image selfOrigin net2 req _ hcat]
  exact imageStrategy_hit net2 req _ resp hmatch

theorem image_repeat_request_cached_witness :
    handleFetch "https://matt-10013.github.io" (fun _ => none) (witReq 0)
        (handleFetch "https://matt-10013.github.io" witNet (witReq 0) []).2
      = (.responded { ok := true, body := 0 },
        (handleFetch "https://matt-10013.github.io" witNet (witReq 0) []).2) :=
  image_repeat_request_cached "https://matt-10013.github.io" witNet (witReq 0)
    [] { ok := true, body := 0 } rfl rfl rfl rfl (fun _ => none)

end Folio

namespace Folio

/-- Claim C6: a non-GET request, or a GET request whose host matches one of the
bypass markers (authentication, document database, identity verification,
token refresh) or the image-discovery API host, is classified bypass: the
fetch handler performs no cache lookup and no store write, classifies the
request into none of the three caching paths, and the request passes through
to the network unmodified. -/
theorem bypass_requests_untouched (selfOrigin : String) (net : Network)
    (req : Request) (s : CacheStore)
    (h : req.method ≠ "GET" ∨ authBypass req.hostname = true
        ∨ jsIncludes req.hostname "api.unsplash.com" = true) :
    classify selfOrigin req = .bypass
    ∧ handleFetch selfOrigin net req s = (.passthrough, s) := by
  have hc : classify selfOrigin req = .bypass := by
    unfold classify
    by_cases hm : (req.method != "GET") = true
    · rw [if_pos hm]
    · rw [if_neg hm]
      have hget : req.method = "GET" := by
        simpa using hm
      rcases h with h | h | h
      · exact absurd hget h
      · rw [if_pos h]
      · by_cases ha : authBypass req.hostname = true
        · rw [if_pos ha]
        · rw [if_neg ha, if_pos h]
  exact ⟨hc, handleFetch_bypass selfOrigin net req s hc⟩

def postReq : Request :=
  { method := "POST"
    url := "https://matt-10013.github.io/folio/api"
    hostname := "matt-10013.github.io"
    origin := "https://matt-10013.github.io" }

def firestoreReq : Request :=
  { method := "GET"
    url := "https://firestore.googleapis.com/v1/projects/folio/databases"
    hostname := "firestore.googleapis.com"
    origin := "https://firestore.googleapis.com" }

theorem bypass_requests_untouched_witness :
    (classify "https://matt-10013.github.io" postReq = .bypass
      ∧ handleFetch "https://matt-10013.github.io" witNet postReq []
          = (.passthrough, []))
    ∧ (classify "https://matt-10013.github.io" firestoreReq = .bypass
      ∧ handleFetch "https://matt-10013.github.io" witNet firestoreReq
          [(CACHE_NAME, [])] = (.passthrough, [(CACHE_NAME, [])])) :=
  ⟨bypass_requests_untouched "https://matt-10013.github.io" witNet postReq []
      (Or.inl (by decide)),
    bypass_requests_untouched "https://matt-10013.github.io" witNet
      firestoreReq [(CACHE_NAME, [])] (Or.inr (Or.inl (by decide)))⟩

/-- Claim C4: a network response whose status is not ok is never written to any
cache generation — the store is unchanged in every strategy — and on the
paths where the network is actually consulted (a cache-first miss, or the
network-first branch) that response is returned to the caller unmodified. -/
theorem non_ok_response_never_cached (selfOrigin : String) (net : Network)
    (req : Request) (s : CacheStore) (resp : Response)
    (hnet : net req = some resp) (hok : resp.ok = false) :
    (handleFetch selfOrigin net req s).2 = s
    ∧ (classify selfOrigin req ≠ .bypass → cachesMatch req s = none →
        (handleFetch selfOrigin net req s).1 = .responded resp) := by
  cases hc : classify selfOrigin req with
  | bypass =>
    rw [handleFetch_bypass selfOrigin net req s hc]
    exact ⟨rfl, fun hne _ => absurd rfl hne⟩
  | imageCache =>
    rw [handleFetch_image selfOrigin net req s hc]
    cases hm : cachesMatch req s with
    | some c =>
      rw [imageStrategy_hit net req s c hm]
      exact ⟨rfl, fun _ hmiss => Option.noConfusion hmiss⟩
    | none =>
      rw [imageStrategy_notOk net req s resp hm hnet hok]
      exact ⟨rfl, fun _ _ => rfl⟩
  | allowlisted =>
    rw [handleFetch_allowlisted selfOrigin net req s hc]
    cases hm : cachesMatch req s with
    | some c =>
      rw [allowlistStrategy_hit net req s c hm]
      exact ⟨rfl, fun _ hmiss => Option.noConfusion hmiss⟩
    | none =>
      rw [allowlistStrategy_notOk net req s resp hm hnet hok]
      exact ⟨rfl, fun _ _ => rfl⟩
  | sameOrigin =>
    rw [handleFetch_sameOrigin selfOrigin net req s hc]
    rw [sameOriginStrategy_notOk net req s resp hnet hok]
    exact ⟨rfl, fun _ _ => rfl⟩

def errNet : Network := fun _ => some { ok := false, body := 404 }

theorem non_ok_response_never_cached_witness :
    ((handleFetch "https://matt-10013.github.io" errNet (witReq 0) []).2 = []
      ∧ (classify "https://matt-10013.github.io" (witReq 0) ≠ .bypass →
          cachesMatch (witReq 0) [] = none →
          (handleFetch "https://matt-10013.github.io" errNet (witReq 0) []).1
            = .responded { ok := false, body := 404 })) :=
  non_ok_response_never_cached "https://matt-10013.github.io" errNet
    (witReq 0) [] { ok := false, body := 404 } rfl rfl

end Folio

namespace Folio

/-- The generation a cache-first strategy writes to: the image generation for
the image branch, the current-version generation otherwise. -/
def targetGen : Category → String
  | .imageCache => IMAGE_CACHE
  | _ => CACHE_NAME

/-- Claim C2: for a request classified into a cache-first strategy, on a store
whose generation names are distinct and in which the request's identity
occurs at most in the strategy's target generation, a hit returns the
snapshot stored in the target generation (terminal, store untouched) and a
request whose identity is absent from the target generation proceeds to the
network fetch. -/
theorem cache_first_target_generation_lookup (selfOrigin : String)
    (net : Network) (req : Request) (s : CacheStore)
    (hnd : (s.map (fun g => g.1)).Nodup)
    (hcat : classify selfOrigin req = .imageCache
        ∨ classify selfOrigin req = .allowlisted)
    (hside : ∀ g ∈ s, g.1 ≠ targetGen (classify selfOrigin req) →
        matchEntries req g.2 = none) :
    (∀ c, matchEntries req
          (cacheEntries (targetGen (classify selfOrigin req)) s) = some c →
        handleFetch selfOrigin net req s = (.responded c, s))
    ∧ (matchEntries req
          (cacheEntries (targetGen (classify selfOrigin req)) s) = none →
        (handleFetch selfOrigin net req s).1
          = match net req with
            | none => .failed
            | some r => .responded r) := by
  rcases hcat with hc | hc <;> rw [hc] at hside ⊢
  · constructor
    · intro c hsome
      have hmatch : cachesMatch req s = some c :=
        cachesMatch_of_target_some _ req c s hside hsome
      rw [handleFetch_image selfOrigin net req s hc]
      exact imageStrategy_hit net req s c hmatch
    · intro hnone
      have hmiss : cachesMatch req s = none :=
        cachesMatch_of_target_none _ req s hnd hside hnone
      rw [handleFetch_image selfOrigin net req s hc]
      cases hn : net req with
      | none => rw [imageStrategy_fail net req s hmiss hn]
      | some r =>
        cases hro : r.ok with
        | true =>
          exact (imageStrategy_spec net req r s hmiss hn hro).1
        | false =>
          rw [imageStrategy_notOk net req s r hmiss hn hro]
  · constructor
    · intro c hsome
      have hmatch : cachesMatch req s = some c :=
        cachesMatch_of_target_some _ req c s hside hsome
      rw [handleFetch_allowlisted selfOrigin net req s hc]
      exact allowlistStrategy_hit net req s c hmatch
    · intro hnone
      have hmiss : cachesMatch req s = none :=
        cachesMatch_of_target_none _ req s hnd hside hnone
      rw [handleFetch_allowlisted selfOrigin net req s hc]
      cases hn : net req with
      | none => rw [allowlistStrategy_fail net req s hmiss hn]
      | some r =>
        cases hro : r.ok with
        | true => rw [allowlistStrategy_ok net req s r hmiss hn hro]
        | false => rw [allowlistStrategy_notOk net req s r hmiss hn hro]

theorem cache_first_target_generation_lookup_witness :
    handleFetch "https://matt-10013.github.io" witNet (witReq 0)
        [(CACHE_NAME, []), (IMAGE_CACHE, [(witReq 0, { ok := true, body := 9 })])]
      = (.responded { ok := true, body := 9 },
        [(CACHE_NAME, []), (IMAGE_CACHE, [(witReq 0, { ok := true, body := 9 })])]) :=
  (cache_first_target_generation_lookup "https://matt-10013.github.io" witNet
      (witReq 0)
      [(CACHE_NAME, []), (IMAGE_CACHE, [(witReq 0, { ok := true, body := 9 })])]
      (by decide) (Or.inl rfl)
      (by
        intro g hg hne
        simp only [List.mem_cons, List.not_mem_nil, or_false] at hg
        rcases hg with rfl | rfl
        · rfl
        · exact absurd rfl hne)).1
    { ok := true, body := 9 } rfl

/-- Claim C3: for a same-origin request whose network fetch rejects, on a store
with distinct generation names in which the request's identity occurs at most
in the current-version generation: if a snapshot for the identity exists in
the current-version generation the caller receives exactly that snapshot, and
if none exists the operation fails with a network error. -/
theorem sameOrigin_offline_fallback (selfOrigin : String) (net : Network)
    (req : Request) (s : CacheStore)
    (hnd : (s.map (fun g => g.1)).Nodup)
    (hcat : classify selfOrigin req = .sameOrigin)
    (hnet : net req = none)
    (hside : ∀ g ∈ s, g.1 ≠ CACHE_NAME → matchEntries req g.2 = none) :
    (∀ c, matchEntries req (cacheEntries CACHE_NAME s) = some c →
        handleFetch selfOrigin net req s = (.responded c, s))
    ∧ (matchEntries req (cacheEntries CACHE_NAME s) = none →
        handleFetch selfOrigin net req s = (.failed, s)) := by
  rw [handleFetch_sameOrigin selfOrigin net req s hcat]
  constructor
  · intro c hsome
    exact sameOriginStrategy_fallback_hit net req s c hnet
      (cachesMatch_of_target_some _ req c s hside hsome)
  · intro hnone
    exact sameOriginStrategy_fallback_miss net req s hnet
      (cachesMatch_of_target_none _ req s hnd hside hnone)

def pageReq : Request :=
  { method := "GET"
    url := "https://matt-10013.github.io/folio/index.html"
    hostname := "matt-10013.github.io"
    origin := "https://matt-10013.github.io" }

def offlineNet : Network := fun _ => none

theorem sameOrigin_offline_fallback_witness :
    handleFetch "https://matt-10013.github.io" offlineNet pageReq
        [(CACHE_NAME, [(pageReq, { ok := true, body := 3 })])]
      = (.responded { ok := true, body := 3 },
        [(CACHE_NAME, [(pageReq, { ok := true, body := 3 })])]) :=
  (sameOrigin_offline_fallback "https://matt-10013.github.io" offlineNet
      pageReq [(CACHE_NAME, [(pageReq, { ok := true, body := 3 })])]
      (by decide) (by decide) rfl
      (by
        intro g hg hne
        simp only [List.mem_cons, List.not_mem_nil, or_false] at hg
        rcases hg with rfl
        exact absurd rfl hne)).1
    { ok := true, body := 3 } rfl

end Folio

namespace Folio

theorem cacheEntries_filter (name : String) (keep : String × Entries → Bool)
    (hk : ∀ g : String × Entries, g.1 = name → keep g = true) :
    ∀ s : CacheStore, cacheEntries name (s.filter keep) = cacheEntries name s
  | [] => rfl
  | g :: rest => by
    by_cases hkeep : keep g = true
    · rw [List.filter_cons_of_pos hkeep, cacheEntries_cons, cacheEntries_cons]
      split
      · rfl
      · exact cacheEntries_filter name keep hk rest
    · have hg : (g.1 == name) = false := by
        rw [beq_eq_false_iff_ne]
        intro heq
        rw [hk g heq] at hkeep
        exact hkeep rfl
      rw [List.filter_cons_of_neg (by simp [hkeep]), cacheEntries_cons, hg]
      simp only [Bool.false_eq_true, if_false]
      exact cacheEntries_filter name keep hk rest

theorem hasCache_filter_false (n : String) (keep : String × Entries → Bool)
    (s : CacheStore) (hk : ∀ g : String × Entries, g.1 = n → keep g = false) :
    hasCache n (s.filter keep) = false := by
  unfold hasCache
  rw [Bool.eq_false_iff]
  intro hany
  rw [List.any_eq_true] at hany
  obtain ⟨g, hg, hgn⟩ := hany
  rcases List.mem_filter.mp hg with ⟨_, hkeep⟩
  rw [hk g (eq_of_beq hgn)] at hkeep
  cases hkeep

/-- Claim C5: after the activate rollover, every generation whose name is
neither the current-version name nor the image-generation name is absent from
the store, and the contents of the two live generations are unchanged. -/
theorem rollover_deletes_stale_generations (s : CacheStore) :
    (∀ n : String, n ≠ CACHE_NAME → n ≠ IMAGE_CACHE →
        hasCache n (rollover s) = false)
    ∧ cacheEntries CACHE_NAME (rollover s) = cacheEntries CACHE_NAME s
    ∧ cacheEntries IMAGE_CACHE (rollover s) = cacheEntries IMAGE_CACHE s := by
  refine ⟨?_, ?_, ?_⟩
  · intro n h1 h2
    apply hasCache_filter_false
    intro g hg
    rw [hg]
    have hb1 : (n == CACHE_NAME) = false := beq_eq_false_iff_ne.mpr h1
    have hb2 : (n == IMAGE_CACHE) = false := beq_eq_false_iff_ne.mpr h2
    simp [hb1, hb2]
  · exact cacheEntries_filter CACHE_NAME _ (fun g hg => by simp [hg]) s
  · exact cacheEntries_filter IMAGE_CACHE _ (fun g hg => by simp [hg]) s

def staleStore : CacheStore :=
  [("folio-v0.9", [(pageReq, { ok := true, body := 1 })]),
   (CACHE_NAME, [(pageReq, { ok := true, body := 2 })]),
   (IMAGE_CACHE, [(witReq 0, { ok := true, body := 3 })])]

theorem rollover_deletes_stale_generations_witness :
    hasCache "folio-v0.9" (rollover staleStore) = false
    ∧ cacheEntries CACHE_NAME (rollover staleStore)
        = cacheEntries CACHE_NAME staleStore
    ∧ cacheEntries IMAGE_CACHE (rollover staleStore)
        = cacheEntries IMAGE_CACHE staleStore :=
  ⟨(rollover_deletes_stale_generations staleStore).1 "folio-v0.9"
      (by decide) (by decide),
    (rollover_deletes_stale_generations staleStore).2.1,
    (rollover_deletes_stale_generations staleStore).2.2⟩

/-- Claim C9: the rollover deletions are attempted independently: for any
pattern of per-generation deletion outcomes, every stale generation whose own
deletion succeeds is absent afterwards — regardless of failures of the other
deletions — the live generations are untouched, the aggregate operation
always completes to a store, and when every deletion succeeds the result is
exactly the plain rollover. -/
theorem rollover_deletions_independent (delOk : String → Bool) (s : CacheStore) :
    (∀ n : String, n ≠ CACHE_NAME → n ≠ IMAGE_CACHE → delOk n = true →
        hasCache n (rolloverPartial delOk s) = false)
    ∧ cacheEntries CACHE_NAME (rolloverPartial delOk s)
        = cacheEntries CACHE_NAME s
    ∧ cacheEntries IMAGE_CACHE (rolloverPartial delOk s)
        = cacheEntries IMAGE_CACHE s
    ∧ rolloverPartial (fun _ => true) s = rollover s := by
  refine ⟨?_, ?_, ?_, ?_⟩
  · intro n h1 h2 hdel
    apply hasCache_filter_false
    intro g hg
    rw [hg]
    have hb1 : (n == CACHE_NAME) = false := beq_eq_false_iff_ne.mpr h1
    have hb2 : (n == IMAGE_CACHE) = false := beq_eq_false_iff_ne.mpr h2
    simp [hb1, hb2, hdel]
  · exact cacheEntries_filter CACHE_NAME _ (fun g hg => by simp [hg]) s
  · exact cacheEntries_filter IMAGE_CACHE _ (fun g hg => by simp [hg]) s
  · unfold rolloverPartial rollover
    simp

theorem rollover_deletions_independent_witness :
    hasCache "folio-v0.9"
        (rolloverPartial (fun n => n == "folio-v0.9") staleStore) = false
    ∧ cacheEntries CACHE_NAME
          (rolloverPartial (fun n => n == "folio-v0.9") staleStore)
        = cacheEntries CACHE_NAME staleStore :=
  ⟨(rollover_deletions_independent (fun n => n == "folio-v0.9") staleStore).1
      "folio-v0.9" (by decide) (by decide) (by decide),
    (rollover_deletions_independent (fun n => n == "folio-v0.9") staleStore).2.1⟩

end Folio

namespace Folio

/-- Claim C7: provisioning is all-or-nothing. If any precache fetch rejects the
install fails and readiness (`skipWaiting`) is not signalled; if every
precache fetch succeeds with an ok response, starting from a fresh store the
current-version generation contains exactly one entry per precached URL, each
entry's snapshot is ok, and `skipWaiting` is invoked (the `true` flag) so
activation does not wait for a previously-controlled instance. -/
theorem install_all_or_nothing (net : String → Option Response)
    (selfOrigin : String) (s : CacheStore) :
    ((∃ u ∈ PRECACHE_URLS, net u = none) → install net selfOrigin s = none)
    ∧ ((∀ u ∈ PRECACHE_URLS, ∃ r, net u = some r ∧ r.ok = true) →
        ∃ s1, install net selfOrigin [] = some (s1, true)
          ∧ (cacheEntries CACHE_NAME s1).map (fun e => e.1.url) = PRECACHE_URLS
          ∧ ∀ e ∈ cacheEntries CACHE_NAME s1, e.2.ok = true) := by
  constructor
  · rintro ⟨u, hu, hnone⟩
    have hcond : ¬ (PRECACHE_URLS.all
        (fun u => match net u with | some r => r.ok | none => false) = true) := by
      intro hall
      have h2 := List.all_eq_true.mp hall u hu
      rw [hnone] at h2
      simp at h2
    unfold install addAll
    rw [if_neg hcond]
  · intro hall
    obtain ⟨r1, h1, ho1⟩ := hall "/folio/" (by simp [PRECACHE_URLS])
    obtain ⟨r2, h2, ho2⟩ := hall "/folio/index.html" (by simp [PRECACHE_URLS])
    obtain ⟨r3, h3, ho3⟩ := hall "/folio/manifest.json" (by simp [PRECACHE_URLS])
    refine ⟨[(CACHE_NAME, [(precacheRequest "/folio/" selfOrigin, r1),
      (precacheRequest "/folio/index.html" selfOrigin, r2),
      (precacheRequest "/folio/manifest.json" selfOrigin, r3)])], ?_, ?_, ?_⟩
    · unfold install addAll
      have hcond : PRECACHE_URLS.all
          (fun u => match net u with | some r => r.ok | none => false) = true := by
        simp only [PRECACHE_URLS, List.all_cons, List.all_nil, h1, h2, h3]
        simp [ho1, ho2, ho3]
      rw [if_pos hcond]
      show some (PRECACHE_URLS.foldl _ (openCache CACHE_NAME []), true) = _
      simp only [PRECACHE_URLS, List.foldl_cons, List.foldl_nil, h1, h2, h3]
      show some (cachePut CACHE_NAME (precacheRequest "/folio/manifest.json" selfOrigin) r3
        (cachePut CACHE_NAME (precacheRequest "/folio/index.html" selfOrigin) r2
          (cachePut CACHE_NAME (precacheRequest "/folio/" selfOrigin) r1
            (openCache CACHE_NAME []))), true) = _
      simp only [openCache, hasCache, List.any_nil, Bool.false_eq_true,
        if_false, List.nil_append, cachePut, List.map_cons, List.map_nil,
        beq_self_eq_true, if_true, putEntries, precacheRequest,
        List.filter_cons, List.filter_nil]
      simp
    · simp [cacheEntries_cons, precacheRequest, PRECACHE_URLS]
    · intro e he
      simp only [cacheEntries_cons, beq_self_eq_true, if_true,
        List.mem_cons, List.not_mem_nil, or_false] at he
      rcases he with rfl | rfl | rfl
      · exact ho1
      · exact ho2
      · exact ho3

end Folio

namespace Folio

def failNet : String → Option Response :=
  fun u => if u == "/folio/manifest.json" then none else some { ok := true, body := 1 }

def okNet : String → Option Response := fun _ => some { ok := true, body := 1 }

theorem install_all_or_nothing_witness :
    install failNet "https://matt-10013.github.io" [] = none
    ∧ ∃ s1, install okNet "https://matt-10013.github.io" [] = some (s1, true)
        ∧ (cacheEntries CACHE_NAME s1).map (fun e => e.1.url) = PRECACHE_URLS
        ∧ ∀ e ∈ cacheEntries CACHE_NAME s1, e.2.ok = true :=
  ⟨(install_all_or_nothing failNet "https://matt-10013.github.io" []).1
      ⟨"/folio/manifest.json", by simp [PRECACHE_URLS], rfl⟩,
    (install_all_or_nothing okNet "https://matt-10013.github.io" []).2
      (fun u _ => ⟨{ ok := true, body := 1 }, rfl, rfl⟩)⟩

/-- A request whose hostname is not the image CDN but merely contains the
image-CDN name as a substring. -/
def atkImgReq : Request :=
  { method := "GET"
    url := "https://images.unsplash.com.attacker.example/a"
    hostname := "images.unsplash.com.attacker.example"
    origin := "https://images.unsplash.com.attacker.example" }

/-- A request whose URL starts with an allowlisted-origin string but belongs
to a different host. -/
def atkFontReq : Request :=
  { method := "GET"
    url := "https://fonts.googleapis.com.attacker.example/x"
    hostname := "fonts.googleapis.com.attacker.example"
    origin := "https://fonts.googleapis.com.attacker.example" }

def atkNet : Network := fun _ => some { ok := true, body := 5 }

/-- Claim C10: host classification is by substring and prefix matching, not
origin equality: a hostname that merely contains `images.unsplash.com` is
classified into the bounded image cache and written into the image
generation, and a URL that merely starts with an allowlisted-origin string is
classified allowlisted cache-first and written into the current-version
generation. -/
theorem host_classification_by_substring :
    classify "https://matt-10013.github.io" atkImgReq = .imageCache
    ∧ atkImgReq.hostname ≠ "images.unsplash.com"
    ∧ jsIncludes atkImgReq.hostname "images.unsplash.com" = true
    ∧ (handleFetch "https://matt-10013.github.io" atkNet atkImgReq []).2
        = [(IMAGE_CACHE, [(atkImgReq, { ok := true, body := 5 })])]
    ∧ classify "https://matt-10013.github.io" atkFontReq = .allowlisted
    ∧ atkFontReq.origin ≠ "https://fonts.googleapis.com"
    ∧ jsStartsWith atkFontReq.url "https://fonts.googleapis.com" = true
    ∧ (handleFetch "https://matt-10013.github.io" atkNet atkFontReq []).2
        = [(CACHE_NAME, [(atkFontReq, { ok := true, body := 5 })])] := by
  refine ⟨rfl, by decide, by decide, by decide, rfl, by decide, by decide, by decide⟩

end Folio
